import Mathlib

/-!
Shallow embedding of the aligned.ai backend (src/backend/main.py).

The service stores chat messages in a vector collection and exposes three
interesting HTTP handlers:
  * `POST /chat`                    — `process_chat` (calls `chat`)
  * `GET /getMostSimilar/{user_id}` — `get_most_similar`
  * `GET /user_messages/{user_id}`  — `get_user_messages`

The vector store (chromadb collection with a Cohere embedding function) and
the LLM inference API (Groq) are external collaborators; the spec treats them
as opaque services with a stated contract (spec §4.1, §4.3).  We model the
collection as a list of messages in insertion order, and the external
embedding / completion calls through an `Env` record that carries the
abstract distance function, the completion function, and failure injection
for each outbound network call (a raised exception in Python is modelled as
an `Except.error`).  Distances are modelled as rationals (spec §3: distance
is a float, lower = more similar); none of the claims depends on rounding.
-/

/-- A stored message: document text plus its id and `user_id` metadata,
as held by the chroma collection. -/
structure Message where
  id : String
  text : String
  user_id : String
  deriving DecidableEq

/-- The collection's contents, in insertion order. -/
abbrev Store := List Message

/-- Role tag of a conversation turn sent to the LLM. -/
inductive Role where
  | system
  | user
  deriving DecidableEq

/-- One role-tagged turn handed to the completion API
(a `{'role': ..., 'content': ...}` dict in the Python code). -/
structure Turn where
  role : Role
  content : String
  deriving DecidableEq

/-- Environment of external services: the embedding distance between a query
text and a stored document, the LLM completion, and failure injection for
the two kinds of outbound calls (embedding requests and completion
requests).  A `some e` failure field makes the corresponding call raise. -/
structure Env where
  dist : String → String → ℚ
  llm : List Turn → String
  embedFail : Option String
  llmFail : Option String

/-- Stable insertion (after existing equal keys) into an ascending list;
helper for `sortAsc`. -/
def insertAsc {α : Type} (key : α → ℚ) (x : α) : List α → List α
  | [] => [x]
  | y :: l => if key x < key y then x :: y :: l else y :: insertAsc key x l

/-- Stable ascending sort by a rational key: same output as Python's
`sorted(l, key=...)` (Timsort is stable) and as chroma's
distance-ascending result order. -/
def sortAsc {α : Type} (key : α → ℚ) : List α → List α
  | [] => []
  | x :: l => insertAsc key x (sortAsc key l)

/-- Modelled from the spec: contract of the external collection's `query`
(spec §4.1): nearest matches to `query_text` restricted to the metadata
filter, ordered by ascending distance, at most `n` of them; each match is
returned with its distance. -/
def rankedMatches (env : Env) (query_text : String) (n : Nat)
    (filt : Message → Bool) (st : Store) : List (Message × ℚ) :=
  (sortAsc (fun p => p.2)
    ((st.filter filt).map (fun m => (m, env.dist query_text m.text)))).take n

/-- Effectful `collection.query(...)`: embeds the query text (which can
raise if the embedding provider fails) and returns the ranked matches.
The collection is read, never written. -/
def collQuery (env : Env) (query_text : String) (n : Nat)
    (filt : Message → Bool) (st : Store) :
    Except String (List (Message × ℚ)) × Store :=
  match env.embedFail with
  | some e => (.error e, st)
  | none => (.ok (rankedMatches env query_text n filt st), st)

/-- Effectful `collection.get(where=...)`: all stored messages matching the
metadata filter; no embedding call is made, so it cannot fail. -/
def collGet (filt : Message → Bool) (st : Store) : List Message × Store :=
  (st.filter filt, st)

/-- Effectful `collection.count()`: total number of stored messages. -/
def collCount (st : Store) : Nat × Store :=
  (st.length, st)

/-- Effectful `collection.add(documents=[doc], ids=[id], metadatas=[{user_id}])`:
appends one message. -/
def collAdd (doc : String) (id : String) (uid : String) (st : Store) :
    Unit × Store :=
  ((), st ++ [⟨id, doc, uid⟩])

/-- The fixed system instruction `MODEL_PROMPT` from main.py. -/
def MODEL_PROMPT : String :=
  "\nYou are a relationship coach. \nAsk me deep situation and interest-based questions to evaluate my personality so that I can be matched to others in the future and make me tell it with an example or story.\nAs I answer, use my previous answers to ask more meaningful and deep questions, provoking a thoughtful response from me.\nAsk questions that make me reveal what my values are.\n"

/-- Turn list built by `chat`: the system prompt, then each retrieved prior
message as a user turn in the order the store returned them, then the new
message as the final user turn. -/
def contextTurns (previous_messages : List String) (user_message : String) :
    List Turn :=
  ⟨Role.system, MODEL_PROMPT⟩ ::
    (previous_messages.map (fun t => ⟨Role.user, t⟩) ++ [⟨Role.user, user_message⟩])

/-- The completion call `client.chat.completions.create(messages=..., model=...)`:
raises if the LLM provider fails, otherwise returns the completion text. -/
def llmComplete (env : Env) (messages : List Turn) : Except String String :=
  match env.llmFail with
  | some e => .error e
  | none => .ok (env.llm messages)

/-- The `chat` coroutine of main.py: query the store for up to 10 nearest
prior messages of `user_id` probed by `user_message`, build the turn list,
call the LLM, return the assistant text.  Any raised exception propagates. -/
def chat (env : Env) (user_id : String) (user_message : String) (st : Store) :
    Except String String × Store :=
  match collQuery env user_message 10 (fun m => m.user_id == user_id) st with
  | (.error e, st) => (.error e, st)
  | (.ok results, st) =>
    let previous_messages := results.map (fun p => p.1.text)
    match llmComplete env (contextTurns previous_messages user_message) with
    | .error e => (.error e, st)
    | .ok assistant_message => (.ok assistant_message, st)

/-- Keep-best update of the `similar_users` dict: Python's
`if similar_user_id not in similar_users or distance < similar_users[...]:
similar_users[...] = distance`, with the dict modelled as an association
list in key-insertion order (Python dicts preserve insertion order, and
updating an existing key keeps its position). -/
def dictInsertMin : List (String × ℚ) → String → ℚ → List (String × ℚ)
  | [], u, d => [(u, d)]
  | (k, v) :: rest, u, d =>
    if k == u then
      (if d < v then (k, d) :: rest else (k, v) :: rest)
    else
      (k, v) :: dictInsertMin rest u d

/-- The `similar_users` dict after the aggregation loop of
`get_most_similar`, from the (user_id, distance) pairs of the query
results. -/
def similar_users_of (pairs : List (String × ℚ)) : List (String × ℚ) :=
  pairs.foldl (fun m p => dictInsertMin m p.1 p.2) []

/-- Python's `sorted(similar_users.items(), key=lambda x: x[1])`. -/
def sorted_similar_users_of (pairs : List (String × ℚ)) :
    List (String × ℚ) :=
  sortAsc (fun p => p.2) (similar_users_of pairs)

/-- Response of `GET /getMostSimilar/{user_id}`: either
`{"most_similar_user": u}` or `{"message": s}`. -/
inductive SimilarResp where
  | mostSimilar (u : String)
  | message (s : String)
  deriving DecidableEq

/-- The `" ".join(user_messages['documents'])` probe string of
`get_most_similar`. -/
def combined_query_of (docs : List String) : String :=
  String.intercalate " " docs

/-- Handler of `GET /getMostSimilar/{user_id}` (main.py `get_most_similar`):
fetch the user's documents; if none, answer "No messages found for this
user"; otherwise query the 50 nearest neighbors excluding the user's own
messages, aggregate each other user to its minimum distance, sort ascending
and return the first, or "No similar users found" when there is none. -/
def get_most_similar (env : Env) (user_id : String) (st : Store) :
    Except String SimilarResp × Store :=
  let (user_messages, st) := collGet (fun m => m.user_id == user_id) st
  let user_documents := user_messages.map (fun m => m.text)
  if user_documents.isEmpty then
    (.ok (.message "No messages found for this user"), st)
  else
    let combined_query := combined_query_of user_documents
    match collQuery env combined_query 50 (fun m => m.user_id != user_id) st with
    | (.error e, st) => (.error e, st)
    | (.ok results, st) =>
      let pairs := results.map (fun p => (p.1.user_id, p.2))
      match sorted_similar_users_of pairs with
      | (u, _) :: _ => (.ok (.mostSimilar u), st)
      | [] => (.ok (.message "No similar users found"), st)

/-- Message id minted by `process_chat`:
`f"user_message_{user_id}_{collection.count()}"`. -/
def mkId (user_id : String) (count : Nat) : String :=
  "user_message_" ++ user_id ++ "_" ++ Nat.repr count

/-- Response body of `POST /chat`. -/
structure ChatResp where
  user_id : String
  user_message : String
  llm_response : String
  deriving DecidableEq

/-- Handler of `POST /chat` (main.py `process_chat`): run `chat`; on success
add the user's message (id minted from the current collection count) and
return `{user_id, user_message, llm_response}`.  A raised exception
propagates before the add. -/
def process_chat (env : Env) (user_id : String) (user_message : String)
    (st : Store) : Except String ChatResp × Store :=
  match chat env user_id user_message st with
  | (.error e, st) => (.error e, st)
  | (.ok llm_response, st) =>
    let (cnt, st) := collCount st
    let (_, st) := collAdd user_message (mkId user_id cnt) user_id st
    (.ok ⟨user_id, user_message, llm_response⟩, st)

/-- Handler of `GET /user_messages/{user_id}` (main.py `get_user_messages`):
returns the user's id together with all of their raw message texts. -/
def get_user_messages (user_id : String) (st : Store) :
    (String × List String) × Store :=
  let (user_messages, st) := collGet (fun m => m.user_id == user_id) st
  ((user_id, user_messages.map (fun m => m.text)), st)

/-- Sequential execution of `POST /chat` requests, one after another,
starting from the given store: each request carries its own environment
(the external services may answer or fail differently each time). -/
def run_chats (st : Store) (reqs : List (Env × String × String)) : Store :=
  reqs.foldl (fun st r => (process_chat r.1 r.2.1 r.2.2 st).2) st

/-- Texts of the documents `get_most_similar` fetches for the user
(the `user_messages['documents']` list). -/
def user_documents_of (st : Store) (user_id : String) : List String :=
  (st.filter (fun m => m.user_id == user_id)).map (fun m => m.text)

/-- The (user_id, distance) pairs `get_most_similar` aggregates: metadata
and distance of each match of the excluding query, zipped. -/
def similarity_pairs (env : Env) (st : Store) (user_id : String) :
    List (String × ℚ) :=
  (rankedMatches env (combined_query_of (user_documents_of st user_id)) 50
    (fun m => m.user_id != user_id) st).map (fun p => (p.1.user_id, p.2))

/-- Numeric value of a decimal digit character. -/
def digitVal (c : Char) : Nat := c.toNat - 48

/-- Value of a big-endian list of decimal digit characters, as produced by
`Nat.toDigits`. -/
def decimalVal (l : List Char) : Nat :=
  l.foldl (fun a c => 10 * a + digitVal c) 0

/-- Store invariant maintained by `process_chat`: the message at position
`i` was inserted when the collection counted exactly `i` messages, so its
id is `mkId` of its own user and `i`. -/
def GoodIds (st : Store) : Prop :=
  ∀ i (h : i < st.length), st[i].id = mkId (st[i].user_id) i

/-- Fixture: an environment whose external services all answer (the only
nonzero-structure part is the distance, which prefers the text
"hi there"). -/
def envOk : Env where
  dist := fun _ t => if t == "hi there" then 1 else 2
  llm := fun _ => "tell me more"
  embedFail := none
  llmFail := none

/-- Fixture: an environment whose embedding provider is down, so every
embedding call raises. -/
def envEmbedDown : Env where
  dist := fun _ _ => 0
  llm := fun _ => "tell me more"
  embedFail := some "embedding provider down"
  llmFail := none

/-- Fixture: an environment whose LLM provider is down, so every
completion call raises. -/
def envLlmDown : Env where
  dist := fun _ _ => 0
  llm := fun _ => "tell me more"
  embedFail := none
  llmFail := some "llm provider down"

/-- Fixture: a store holding one message of alice and one of bob. -/
def demoStore : Store :=
  [⟨"user_message_alice_0", "hello", "alice"⟩,
   ⟨"user_message_bob_1", "hi there", "bob"⟩]

/-- Fixture: a store in which only alice has messages. -/
def aliceOnlyStore : Store :=
  [⟨"user_message_alice_0", "hello", "alice"⟩]

theorem insertAsc_ne_nil {α : Type} (key : α → ℚ) (a : α) (l : List α) :
    insertAsc key a l ≠ [] := by
  cases l with
  | nil => simp [insertAsc]
  | cons y t => simp only [insertAsc]; split <;> simp

theorem mem_insertAsc {α : Type} (key : α → ℚ) (a x : α) (l : List α) :
    x ∈ insertAsc key a l ↔ x = a ∨ x ∈ l := by
  induction l with
  | nil => simp [insertAsc]
  | cons y t ih =>
    simp only [insertAsc]
    split
    · simp only [List.mem_cons]
    · simp only [List.mem_cons, ih]
      tauto

theorem mem_sortAsc {α : Type} (key : α → ℚ) (x : α) (l : List α) :
    x ∈ sortAsc key l ↔ x ∈ l := by
  induction l with
  | nil => simp [sortAsc]
  | cons y t ih =>
    simp only [sortAsc, mem_insertAsc, List.mem_cons, ih]

theorem sortAsc_ne_nil {α : Type} (key : α → ℚ) (l : List α) (h : l ≠ []) :
    sortAsc key l ≠ [] := by
  cases l with
  | nil => exact absurd rfl h
  | cons y t =>
    simp only [sortAsc]
    exact insertAsc_ne_nil key y (sortAsc key t)

theorem pairwise_insertAsc {α : Type} (key : α → ℚ) (a : α) (l : List α)
    (h : l.Pairwise (fun x y => key x ≤ key y)) :
    (insertAsc key a l).Pairwise (fun x y => key x ≤ key y) := by
  induction l with
  | nil => simp [insertAsc]
  | cons y t ih =>
    rcases List.pairwise_cons.mp h with ⟨hy, ht⟩
    simp only [insertAsc]
    split
    · next hlt =>
      refine List.pairwise_cons.mpr ⟨?_, h⟩
      intro z hz
      rcases List.mem_cons.mp hz with rfl | hz
      · exact le_of_lt hlt
      · exact le_of_lt (lt_of_lt_of_le hlt (hy z hz))
    · next hnlt =>
      refine List.pairwise_cons.mpr ⟨?_, ih ht⟩
      intro z hz
      rcases (mem_insertAsc key a z t).mp hz with rfl | hz
      · exact le_of_not_lt hnlt
      · exact hy z hz

theorem pairwise_sortAsc {α : Type} (key : α → ℚ) (l : List α) :
    (sortAsc key l).Pairwise (fun x y => key x ≤ key y) := by
  induction l with
  | nil => simp [sortAsc]
  | cons y t ih =>
    simp only [sortAsc]
    exact pairwise_insertAsc key y _ ih

theorem sortAsc_head_min {α : Type} (key : α → ℚ) (l : List α) (x : α)
    (r : List α) (h : sortAsc key l = x :: r) :
    x ∈ l ∧ ∀ y ∈ l, key x ≤ key y := by
  have hpw := pairwise_sortAsc key l
  rw [h] at hpw
  rcases List.pairwise_cons.mp hpw with ⟨hx, _⟩
  constructor
  · exact (mem_sortAsc key x l).mp (h ▸ List.mem_cons_self x r)
  · intro y hy
    have hy2 : y ∈ x :: r := h ▸ (mem_sortAsc key y l).mpr hy
    rcases List.mem_cons.mp hy2 with rfl | hy3
    · exact le_refl _
    · exact hx y hy3

theorem collQuery_snd (env : Env) (q : String) (n : Nat)
    (filt : Message → Bool) (st : Store) :
    (collQuery env q n filt st).2 = st := by
  unfold collQuery
  cases env.embedFail <;> rfl

theorem collQuery_ok (env : Env) (q : String) (n : Nat) (filt : Message → Bool)
    (st : Store) (results : List (Message × ℚ)) (st' : Store)
    (h : collQuery env q n filt st = (.ok results, st')) :
    results = rankedMatches env q n filt st ∧ st' = st := by
  unfold collQuery at h
  cases henv : env.embedFail with
  | none =>
    rw [henv] at h
    injection h with h1 h2
    injection h1 with h1
    exact ⟨h1.symm, h2.symm⟩
  | some e =>
    rw [henv] at h
    injection h with h1 h2
    exact absurd h1 (by simp)

theorem mem_rankedMatches (env : Env) (q : String) (n : Nat)
    (filt : Message → Bool) (st : Store) (p : Message × ℚ)
    (h : p ∈ rankedMatches env q n filt st) :
    p.1 ∈ st.filter filt ∧ p.2 = env.dist q p.1.text := by
  unfold rankedMatches at h
  have h2 := List.mem_of_mem_take h
  rw [mem_sortAsc] at h2
  rcases List.mem_map.mp h2 with ⟨m, hm, rfl⟩
  exact ⟨hm, rfl⟩

theorem chat_snd (env : Env) (user_id user_message : String) (st : Store) :
    (chat env user_id user_message st).2 = st := by
  unfold chat
  split
  · next e st' h =>
    have h2 := congrArg Prod.snd h
    rw [collQuery_snd] at h2
    exact h2.symm
  · next results st' h =>
    have h2 := congrArg Prod.snd h
    rw [collQuery_snd] at h2
    dsimp only
    split <;> exact h2.symm

/-- Claim C10: the two GET handlers are read-only: handling
`GET /getMostSimilar/{user_id}` or `GET /user_messages/{user_id}` leaves the
stored messages exactly as they were, for every store state, environment
and user id. -/
theorem routes_read_only (env : Env) (st : Store) (user_id : String) :
    (get_most_similar env user_id st).2 = st ∧
    (get_user_messages user_id st).2 = st := by
  constructor
  · unfold get_most_similar
    dsimp [collGet]
    split
    · rfl
    · split
      · next e st' h =>
        have h2 := congrArg Prod.snd h
        rw [collQuery_snd] at h2
        exact h2.symm
      · next results st' h =>
        have h2 := congrArg Prod.snd h
        rw [collQuery_snd] at h2
        split <;> exact h2.symm
  · rfl

/-- Claim C4: for a user with zero stored messages, `get_most_similar`
returns `{"message": "No messages found for this user"}` without touching
the similarity query — in particular it cannot raise, whatever the state of
the embedding provider. -/
theorem get_most_similar_no_messages (env : Env) (st : Store)
    (user_id : String)
    (h : st.filter (fun m => m.user_id == user_id) = []) :
    get_most_similar env user_id st
      = (.ok (.message "No messages found for this user"), st) := by
  unfold get_most_similar
  dsimp [collGet]
  rw [h]
  rfl

/-- Witness for C4: carol has no messages in `demoStore`; the handler
answers the "no messages" message even though the embedding provider is
down. -/
theorem get_most_similar_no_messages_witness :
    demoStore.filter (fun m => m.user_id == "carol") = [] ∧
    get_most_similar envEmbedDown "carol" demoStore
      = (.ok (.message "No messages found for this user"), demoStore) :=
  ⟨by decide, get_most_similar_no_messages envEmbedDown demoStore "carol" (by decide)⟩

theorem dictInsertMin_ne_nil (m : List (String × ℚ)) (u : String) (d : ℚ) :
    dictInsertMin m u d ≠ [] := by
  cases m with
  | nil => simp [dictInsertMin]
  | cons q rest =>
    obtain ⟨k, v⟩ := q
    simp only [dictInsertMin]
    split <;> [split <;> simp; simp]

theorem mem_dictInsertMin (m : List (String × ℚ)) (u : String) (d : ℚ)
    (p : String × ℚ) (h : p ∈ dictInsertMin m u d) : p ∈ m ∨ p = (u, d) := by
  induction m with
  | nil =>
    simp only [dictInsertMin, List.mem_singleton] at h
    exact Or.inr h
  | cons q rest ih =>
    obtain ⟨k, v⟩ := q
    simp only [dictInsertMin] at h
    split at h
    · next hk =>
      have hku : k = u := by simpa using hk
      split at h
      · rcases List.mem_cons.mp h with rfl | h2
        · exact Or.inr (by rw [hku])
        · exact Or.inl (List.mem_cons_of_mem _ h2)
      · exact Or.inl h
    · rcases List.mem_cons.mp h with rfl | h2
      · exact Or.inl (List.mem_cons_self _ _)
      · rcases ih h2 with h3 | h3
        · exact Or.inl (List.mem_cons_of_mem _ h3)
        · exact Or.inr h3

theorem dictInsertMin_keeps (m : List (String × ℚ)) (u : String) (d : ℚ)
    (v : String) (dv : ℚ) (h : (v, dv) ∈ m) :
    ∃ d2, d2 ≤ dv ∧ (v, d2) ∈ dictInsertMin m u d := by
  induction m with
  | nil => cases h
  | cons q rest ih =>
    obtain ⟨k, w⟩ := q
    simp only [dictInsertMin]
    rcases List.mem_cons.mp h with heq | hmem
    · injection heq with h1 h2
      subst h1
      subst h2
      split
      · next hk =>
        split
        · next hd => exact ⟨d, le_of_lt hd, List.mem_cons_self _ _⟩
        · exact ⟨dv, le_refl _, List.mem_cons_self _ _⟩
      · exact ⟨dv, le_refl _, List.mem_cons_self _ _⟩
    · split
      · split
        · exact ⟨dv, le_refl _, List.mem_cons_of_mem _ hmem⟩
        · exact ⟨dv, le_refl _, List.mem_cons_of_mem _ hmem⟩
      · rcases ih hmem with ⟨d2, h1, h2⟩
        exact ⟨d2, h1, List.mem_cons_of_mem _ h2⟩

theorem dictInsertMin_adds (m : List (String × ℚ)) (u : String) (d : ℚ) :
    ∃ d2, d2 ≤ d ∧ (u, d2) ∈ dictInsertMin m u d := by
  induction m with
  | nil => exact ⟨d, le_refl d, by simp [dictInsertMin]⟩
  | cons q rest ih =>
    obtain ⟨k, w⟩ := q
    simp only [dictInsertMin]
    split
    · next hk =>
      have hku : k = u := by simpa using hk
      subst hku
      split
      · exact ⟨d, le_refl d, List.mem_cons_self _ _⟩
      · next hd => exact ⟨w, le_of_not_lt hd, List.mem_cons_self _ _⟩
    · rcases ih with ⟨d2, h1, h2⟩
      exact ⟨d2, h1, List.mem_cons_of_mem _ h2⟩

theorem mem_foldl_dict (pairs : List (String × ℚ)) (m : List (String × ℚ))
    (p : String × ℚ)
    (h : p ∈ pairs.foldl (fun acc q => dictInsertMin acc q.1 q.2) m) :
    p ∈ m ∨ p ∈ pairs := by
  induction pairs generalizing m with
  | nil => exact Or.inl h
  | cons q rest ih =>
    simp only [List.foldl_cons] at h
    rcases ih _ h with h2 | h2
    · rcases mem_dictInsertMin m q.1 q.2 p h2 with h3 | h3
      · exact Or.inl h3
      · right
        rw [Prod.mk.eta] at h3
        exact h3 ▸ List.mem_cons_self _ _
    · exact Or.inr (List.mem_cons_of_mem _ h2)

theorem foldl_dict_ne_nil (pairs : List (String × ℚ))
    (m : List (String × ℚ)) (h : m ≠ [] ∨ pairs ≠ []) :
    pairs.foldl (fun acc q => dictInsertMin acc q.1 q.2) m ≠ [] := by
  induction pairs generalizing m with
  | nil =>
    rcases h with h | h
    · exact h
    · exact absurd rfl h
  | cons q rest ih =>
    simp only [List.foldl_cons]
    exact ih _ (Or.inl (dictInsertMin_ne_nil m q.1 q.2))

theorem foldl_dict_keeps (pairs : List (String × ℚ))
    (m : List (String × ℚ)) (v : String) (dv : ℚ) (h : (v, dv) ∈ m) :
    ∃ d2, d2 ≤ dv ∧
      (v, d2) ∈ pairs.foldl (fun acc q => dictInsertMin acc q.1 q.2) m := by
  induction pairs generalizing m dv with
  | nil => exact ⟨dv, le_refl _, h⟩
  | cons q rest ih =>
    simp only [List.foldl_cons]
    rcases dictInsertMin_keeps m q.1 q.2 v dv h with ⟨d2, h1, h2⟩
    rcases ih _ d2 h2 with ⟨d3, h3, h4⟩
    exact ⟨d3, le_trans h3 h1, h4⟩

theorem foldl_dict_minned (pairs : List (String × ℚ))
    (m : List (String × ℚ)) (v : String) (dv : ℚ) (h : (v, dv) ∈ pairs) :
    ∃ d2, d2 ≤ dv ∧
      (v, d2) ∈ pairs.foldl (fun acc q => dictInsertMin acc q.1 q.2) m := by
  induction pairs generalizing m with
  | nil => cases h
  | cons q rest ih =>
    simp only [List.foldl_cons]
    rcases List.mem_cons.mp h with heq | hmem
    · subst heq
      rcases dictInsertMin_adds m v dv with ⟨d2, h1, h2⟩
      rcases foldl_dict_keeps rest _ v d2 h2 with ⟨d3, h3, h4⟩
      exact ⟨d3, le_trans h3 h1, h4⟩
    · exact ih _ hmem

theorem keys_dictInsertMin_sub (m : List (String × ℚ)) (u : String) (d : ℚ)
    (k : String) (h : k ∈ (dictInsertMin m u d).map Prod.fst) :
    k ∈ m.map Prod.fst ∨ k = u := by
  rcases List.mem_map.mp h with ⟨p, hp, rfl⟩
  rcases mem_dictInsertMin m u d p hp with h2 | h2
  · exact Or.inl (List.mem_map_of_mem _ h2)
  · right
    rw [h2]

theorem nodup_keys_dictInsertMin (m : List (String × ℚ)) (u : String)
    (d : ℚ) (h : (m.map Prod.fst).Nodup) :
    ((dictInsertMin m u d).map Prod.fst).Nodup := by
  induction m with
  | nil => simp [dictInsertMin]
  | cons q rest ih =>
    obtain ⟨k, v⟩ := q
    simp only [List.map_cons, List.nodup_cons] at h
    obtain ⟨hk, hrest⟩ := h
    simp only [dictInsertMin]
    split
    · next hku =>
      split
      · simp only [List.map_cons, List.nodup_cons]
        exact ⟨hk, hrest⟩
      · simp only [List.map_cons, List.nodup_cons]
        exact ⟨hk, hrest⟩
    · next hku =>
      simp only [List.map_cons, List.nodup_cons]
      refine ⟨?_, ih hrest⟩
      intro hkmem
      rcases keys_dictInsertMin_sub rest u d k hkmem with h2 | h2
      · exact hk h2
      · exact absurd h2 (by simpa using hku)

theorem nodup_keys_foldl_dict (pairs : List (String × ℚ))
    (m : List (String × ℚ)) (h : (m.map Prod.fst).Nodup) :
    ((pairs.foldl (fun acc q => dictInsertMin acc q.1 q.2) m).map
      Prod.fst).Nodup := by
  induction pairs generalizing m with
  | nil => exact h
  | cons q rest ih =>
    simp only [List.foldl_cons]
    exact ih _ (nodup_keys_dictInsertMin m q.1 q.2 h)

theorem nodup_keys_val_unique (m : List (String × ℚ))
    (h : (m.map Prod.fst).Nodup) (v : String) (d1 d2 : ℚ)
    (h1 : (v, d1) ∈ m) (h2 : (v, d2) ∈ m) : d1 = d2 := by
  induction m with
  | nil => cases h1
  | cons q rest ih =>
    obtain ⟨k, w⟩ := q
    simp only [List.map_cons, List.nodup_cons] at h
    obtain ⟨hk, hrest⟩ := h
    rcases List.mem_cons.mp h1 with he1 | hm1 <;>
      rcases List.mem_cons.mp h2 with he2 | hm2
    · injection he1 with ha1 hb1
      injection he2 with ha2 hb2
      rw [hb1, hb2]
    · injection he1 with ha1 hb1
      subst ha1
      exact absurd (List.mem_map_of_mem Prod.fst hm2) hk
    · injection he2 with ha2 hb2
      subst ha2
      exact absurd (List.mem_map_of_mem Prod.fst hm1) hk
    · exact ih hrest hm1 hm2

theorem similar_users_sub (pairs : List (String × ℚ)) (p : String × ℚ)
    (h : p ∈ similar_users_of pairs) : p ∈ pairs := by
  unfold similar_users_of at h
  exact (mem_foldl_dict pairs [] p h).resolve_left (by simp)

theorem similar_users_ne_nil (pairs : List (String × ℚ)) (h : pairs ≠ []) :
    similar_users_of pairs ≠ [] := by
  unfold similar_users_of
  exact foldl_dict_ne_nil pairs [] (Or.inr h)

theorem similar_users_min (pairs : List (String × ℚ)) (v : String) (dv : ℚ)
    (h : (v, dv) ∈ similar_users_of pairs) :
    ∀ e, (v, e) ∈ pairs → dv ≤ e := by
  intro e he
  rcases foldl_dict_minned pairs [] v e he with ⟨d2, hle, hmem⟩
  have hnd := nodup_keys_foldl_dict pairs [] (by simp)
  have heq := nodup_keys_val_unique _ hnd v dv d2 h hmem
  exact heq ▸ hle

theorem get_most_similar_eval (env : Env) (st : Store) (user_id : String)
    (henv : env.embedFail = none)
    (hdocs : st.filter (fun m => m.user_id == user_id) ≠ []) :
    get_most_similar env user_id st =
      (match sorted_similar_users_of (similarity_pairs env st user_id) with
       | (u, _) :: _ => (.ok (.mostSimilar u), st)
       | [] => (.ok (.message "No similar users found"), st)) := by
  have hcond :
      ((st.filter (fun m => m.user_id == user_id)).map
        (fun m => m.text)).isEmpty = false := by
    simp only [List.isEmpty_eq_false, ne_eq, List.map_eq_nil_iff]
    exact hdocs
  unfold get_most_similar collQuery
  dsimp [collGet]
  rw [henv, hcond]
  rfl

theorem get_most_similar_embed_error (env : Env) (st : Store)
    (user_id : String) (e : String) (henv : env.embedFail = some e)
    (hdocs : st.filter (fun m => m.user_id == user_id) ≠ []) :
    get_most_similar env user_id st = (.error e, st) := by
  have hcond :
      ((st.filter (fun m => m.user_id == user_id)).map
        (fun m => m.text)).isEmpty = false := by
    simp only [List.isEmpty_eq_false, ne_eq, List.map_eq_nil_iff]
    exact hdocs
  unfold get_most_similar collQuery
  dsimp [collGet]
  rw [henv, hcond]
  rfl

/-- Claim C5: when a user has stored messages but nobody else does, the
excluding query matches nothing, the candidate map is empty, and
`get_most_similar` answers `{"message": "No similar users found"}`
(assuming the embedding call itself goes through). -/
theorem get_most_similar_no_similar (env : Env) (st : Store)
    (user_id : String) (henv : env.embedFail = none)
    (hsome : st.filter (fun m => m.user_id == user_id) ≠ [])
    (hall : ∀ m ∈ st, m.user_id = user_id) :
    get_most_similar env user_id st
      = (.ok (.message "No similar users found"), st) := by
  have hfilt : st.filter (fun m => m.user_id != user_id) = [] := by
    simp only [List.filter_eq_nil_iff]
    intro m hm
    simp [hall m hm]
  have hpairs : similarity_pairs env st user_id = [] := by
    unfold similarity_pairs rankedMatches
    rw [hfilt]
    rfl
  rw [get_most_similar_eval env st user_id henv hsome, hpairs]
  rfl

/-- Witness for C5: alice is the only user with messages, and the answer is
the "no similar users" message. -/
theorem get_most_similar_no_similar_witness :
    envOk.embedFail = none ∧
    aliceOnlyStore.filter (fun m => m.user_id == "alice") ≠ [] ∧
    (∀ m ∈ aliceOnlyStore, m.user_id = "alice") ∧
    get_most_similar envOk "alice" aliceOnlyStore
      = (.ok (.message "No similar users found"), aliceOnlyStore) :=
  ⟨rfl, by decide, by decide,
    get_most_similar_no_similar envOk aliceOnlyStore "alice" rfl
      (by decide) (by decide)⟩

/-- Claim C2: whenever `get_most_similar` answers with a most similar user,
that user differs from the queried one: the nearest-neighbor query is
restricted to messages whose metadata user_id differs from the queried id,
so no candidate carries the querying user's id. -/
theorem get_most_similar_excludes_self (env : Env) (st : Store)
    (user_id u : String)
    (h : (get_most_similar env user_id st).1 = .ok (.mostSimilar u)) :
    u ≠ user_id := by
  by_cases hdocs : st.filter (fun m => m.user_id == user_id) = []
  · rw [get_most_similar_no_messages env st user_id hdocs] at h
    simp at h
  · cases henv : env.embedFail with
    | some e =>
      rw [get_most_similar_embed_error env st user_id e henv hdocs] at h
      simp at h
    | none =>
      rw [get_most_similar_eval env st user_id henv hdocs] at h
      cases hs : sorted_similar_users_of (similarity_pairs env st user_id) with
      | nil =>
        rw [hs] at h
        simp at h
      | cons q r =>
        obtain ⟨u₀, d₀⟩ := q
        rw [hs] at h
        have hu : u₀ = u := by
          have h1 : Except.ok (ε := String) (SimilarResp.mostSimilar u₀)
              = .ok (.mostSimilar u) := h
          injection h1 with h2
          injection h2 with h3
        subst hu
        have hs2 : sortAsc (fun p => p.2)
            (similar_users_of (similarity_pairs env st user_id))
            = (u₀, d₀) :: r := hs
        obtain ⟨hmem, -⟩ :=
          sortAsc_head_min (fun p => p.2) _ (u₀, d₀) r hs2
        have hp0 : (u₀, d₀) ∈ similarity_pairs env st user_id :=
          similar_users_sub _ _ hmem
        unfold similarity_pairs at hp0
        rcases List.mem_map.mp hp0 with ⟨p, hp, hpe⟩
        have hf := (mem_rankedMatches _ _ _ _ _ _ hp).1
        have hne : p.1.user_id ≠ user_id := by
          have := (List.mem_filter.mp hf).2
          simpa using this
        have hid : p.1.user_id = u₀ := by
          injection hpe with h1 h2
        rw [← hid]
        exact hne

/-- Witness for C2: querying for alice in `demoStore` yields bob, and bob is
not alice. -/
theorem get_most_similar_excludes_self_witness :
    (get_most_similar envOk "alice" demoStore).1
      = .ok (.mostSimilar "bob") ∧ "bob" ≠ "alice" :=
  ⟨by rfl,
    get_most_similar_excludes_self envOk demoStore "alice" "bob" (by rfl)⟩

/-- Claim C1: when the queried user has messages and the excluding query
returns at least one match, `get_most_similar` answers with a candidate
user `u` realising the smallest aggregated minimum distance: some match of
`u` has a distance below (or equal to) every match's distance, and the
aggregated candidate map sends each distinct other user to the minimum
distance it appears with. -/
theorem get_most_similar_argmin (env : Env) (st : Store) (user_id : String)
    (henv : env.embedFail = none)
    (hdocs : st.filter (fun m => m.user_id == user_id) ≠ [])
    (hpairs : similarity_pairs env st user_id ≠ []) :
    ∃ u d,
      (get_most_similar env user_id st).1 = .ok (.mostSimilar u) ∧
      (u, d) ∈ similarity_pairs env st user_id ∧
      (∀ p ∈ similarity_pairs env st user_id, d ≤ p.2) ∧
      (∀ q ∈ similar_users_of (similarity_pairs env st user_id),
        q ∈ similarity_pairs env st user_id ∧
        ∀ p ∈ similarity_pairs env st user_id, p.1 = q.1 → q.2 ≤ p.2) := by
  have hne := similar_users_ne_nil _ hpairs
  have hsne :
      sorted_similar_users_of (similarity_pairs env st user_id) ≠ [] := by
    unfold sorted_similar_users_of
    exact sortAsc_ne_nil _ _ hne
  cases hs : sorted_similar_users_of (similarity_pairs env st user_id) with
  | nil => exact absurd hs hsne
  | cons q r =>
    obtain ⟨u, d⟩ := q
    have hs2 : sortAsc (fun p => p.2)
        (similar_users_of (similarity_pairs env st user_id))
        = (u, d) :: r := hs
    obtain ⟨hmem, hmin⟩ :=
      sortAsc_head_min (fun p => p.2) _ (u, d) r hs2
    refine ⟨u, d, ?_, similar_users_sub _ _ hmem, ?_, ?_⟩
    · rw [get_most_similar_eval env st user_id henv hdocs, hs]
    · intro p hp
      rcases foldl_dict_minned (similarity_pairs env st user_id) [] p.1 p.2
          (by rw [Prod.mk.eta]; exact hp) with ⟨d2, hle, hm2⟩
      exact le_trans (hmin (p.1, d2) hm2) hle
    · intro q hq
      refine ⟨similar_users_sub _ _ hq, ?_⟩
      intro p hp hpq
      have hq2 : (q.1, q.2) ∈ similar_users_of (similarity_pairs env st user_id) := by
        rw [Prod.mk.eta]
        exact hq
      have hp2 : (q.1, p.2) ∈ similarity_pairs env st user_id := by
        rw [← hpq, Prod.mk.eta]
        exact hp
      exact similar_users_min _ q.1 q.2 hq2 p.2 hp2

/-- Witness for C1: in `demoStore`, for the query user alice the candidate
set is the single pair (bob, 1), and bob is returned. -/
theorem get_most_similar_argmin_witness :
    envOk.embedFail = none ∧
    demoStore.filter (fun m => m.user_id == "alice") ≠ [] ∧
    similarity_pairs envOk demoStore "alice" ≠ [] ∧
    (∃ u d,
      (get_most_similar envOk "alice" demoStore).1 = .ok (.mostSimilar u) ∧
      (u, d) ∈ similarity_pairs envOk demoStore "alice" ∧
      (∀ p ∈ similarity_pairs envOk demoStore "alice", d ≤ p.2) ∧
      (∀ q ∈ similar_users_of (similarity_pairs envOk demoStore "alice"),
        q ∈ similarity_pairs envOk demoStore "alice" ∧
        ∀ p ∈ similarity_pairs envOk demoStore "alice",
          p.1 = q.1 → q.2 ≤ p.2)) :=
  ⟨rfl, by decide, by decide,
    get_most_similar_argmin envOk demoStore "alice" rfl
      (by decide) (by decide)⟩

/-- Claim C6: a successful `POST /chat` answers with exactly the fields
`user_id`, `user_message` and `llm_response`, the first two echoing the
request character for character. -/
theorem process_chat_response_fields (env : Env) (st : Store)
    (user_id user_message : String) (r : ChatResp)
    (h : (process_chat env user_id user_message st).1 = .ok r) :
    r.user_id = user_id ∧ r.user_message = user_message ∧
    r = ⟨user_id, user_message, r.llm_response⟩ := by
  unfold process_chat at h
  split at h
  · simp at h
  · next resp st' hc =>
    dsimp [collCount, collAdd] at h
    injection h with h1
    subst h1
    exact ⟨rfl, rfl, rfl⟩

/-- Witness for C6: with empty prior history, `POST /chat {"u1", "test"}`
echoes `user_message = "test"` exactly. -/
theorem process_chat_response_fields_witness :
    (process_chat envOk "u1" "test" ([] : Store)).1
      = .ok ⟨"u1", "test", "tell me more"⟩ ∧
    ((⟨"u1", "test", "tell me more"⟩ : ChatResp).user_id = "u1" ∧
     (⟨"u1", "test", "tell me more"⟩ : ChatResp).user_message = "test" ∧
     (⟨"u1", "test", "tell me more"⟩ : ChatResp)
       = ⟨"u1", "test",
           (⟨"u1", "test", "tell me more"⟩ : ChatResp).llm_response⟩) :=
  ⟨by rfl,
    process_chat_response_fields envOk [] "u1" "test"
      ⟨"u1", "test", "tell me more"⟩ (by rfl)⟩

/-- Claim C7: a successful `POST /chat` appends exactly one message to the
store, whose id is `"user_message_{user_id}_{count}"` with `count` the
total number of stored messages at the moment of insertion. -/
theorem process_chat_persists_one (env : Env) (st : Store)
    (user_id user_message : String) (r : ChatResp)
    (h : (process_chat env user_id user_message st).1 = .ok r) :
    (process_chat env user_id user_message st).2
      = st ++ [⟨mkId user_id st.length, user_message, user_id⟩] ∧
    mkId user_id st.length
      = "user_message_" ++ user_id ++ "_" ++ Nat.repr st.length := by
  refine ⟨?_, rfl⟩
  have hsnd := chat_snd env user_id user_message st
  rcases hc : chat env user_id user_message st with ⟨res, st'⟩
  rw [hc] at hsnd
  dsimp at hsnd
  unfold process_chat at h ⊢
  rw [hc] at h ⊢
  cases res with
  | error e => simp at h
  | ok resp =>
    dsimp [collCount, collAdd]
    rw [hsnd]

/-- Witness for C7: the first chat of u1 into an empty store persists one
message with id `user_message_u1_0`. -/
theorem process_chat_persists_one_witness :
    (process_chat envOk "u1" "test" ([] : Store)).1
      = .ok ⟨"u1", "test", "tell me more"⟩ ∧
    ((process_chat envOk "u1" "test" ([] : Store)).2
       = ([] : Store)
           ++ [⟨mkId "u1" ([] : Store).length, "test", "u1"⟩] ∧
     mkId "u1" ([] : Store).length
       = "user_message_" ++ "u1" ++ "_" ++ Nat.repr ([] : Store).length) :=
  ⟨by rfl,
    process_chat_persists_one envOk [] "u1" "test"
      ⟨"u1", "test", "tell me more"⟩ (by rfl)⟩

/-- Claim C9: if the context-building query or the LLM completion raises,
the error propagates out of `POST /chat` and the store is left unchanged:
the user's message is only added after the completion has returned. -/
theorem process_chat_atomic_on_failure (env : Env) (st : Store)
    (user_id user_message : String)
    (h : env.embedFail.isSome ∨ env.llmFail.isSome) :
    (∃ e, (process_chat env user_id user_message st).1 = .error e) ∧
    (process_chat env user_id user_message st).2 = st := by
  have hchat : ∃ e, chat env user_id user_message st = (.error e, st) := by
    cases hb : env.embedFail with
    | some e =>
      refine ⟨e, ?_⟩
      unfold chat collQuery
      rw [hb]
    | none =>
      have hl : ∃ e, env.llmFail = some e := by
        rcases h with h | h
        · rw [hb] at h
          simp at h
        · exact Option.isSome_iff_exists.mp h
      rcases hl with ⟨e, hl⟩
      refine ⟨e, ?_⟩
      unfold chat collQuery llmComplete
      rw [hb, hl]
  rcases hchat with ⟨e, hchat⟩
  unfold process_chat
  rw [hchat]
  exact ⟨⟨e, rfl⟩, rfl⟩

/-- Witness for C9: with the LLM provider down, `POST /chat` fails and
leaves `demoStore` unchanged. -/
theorem process_chat_atomic_on_failure_witness :
    (envLlmDown.embedFail.isSome ∨ envLlmDown.llmFail.isSome) ∧
    ((∃ e, (process_chat envLlmDown "alice" "hey" demoStore).1 = .error e) ∧
     (process_chat envLlmDown "alice" "hey" demoStore).2 = demoStore) :=
  ⟨Or.inr rfl,
    process_chat_atomic_on_failure envLlmDown demoStore "alice" "hey"
      (Or.inr rfl)⟩

/-- Claim C3: whenever the context query succeeds with `results`, the turn
sequence `chat` hands to the LLM gateway is exactly the fixed system
instruction, then each retrieved message as a prior user turn in the order
the store returned them, then the new message as the final turn; it has
between 2 and 12 turns and its last element is the new message. -/
theorem chat_turn_sequence (env : Env) (st : Store)
    (user_id user_message : String) (results : List (Message × ℚ))
    (h : (collQuery env user_message 10 (fun m => m.user_id == user_id) st).1
      = .ok results) :
    (chat env user_id user_message st).1
      = llmComplete env
          (contextTurns (results.map (fun p => p.1.text)) user_message) ∧
    contextTurns (results.map (fun p => p.1.text)) user_message
      = ⟨Role.system, MODEL_PROMPT⟩ ::
          (results.map (fun p => (⟨Role.user, p.1.text⟩ : Turn))
            ++ [⟨Role.user, user_message⟩]) ∧
    2 ≤ (contextTurns (results.map (fun p => p.1.text)) user_message).length ∧
    (contextTurns (results.map (fun p => p.1.text)) user_message).length ≤ 12 ∧
    (contextTurns (results.map (fun p => p.1.text)) user_message).getLast?
      = some ⟨Role.user, user_message⟩ := by
  have hq : collQuery env user_message 10 (fun m => m.user_id == user_id) st
      = (.ok results, st) := by
    rw [Prod.ext_iff]
    exact ⟨h, collQuery_snd env user_message 10 (fun m => m.user_id == user_id) st⟩
  have hr : results.length ≤ 10 := by
    obtain ⟨hres, -⟩ :=
      collQuery_ok env user_message 10 (fun m => m.user_id == user_id) st
        results st hq
    rw [hres]
    unfold rankedMatches
    exact List.length_take_le 10 _
  have hlen : (contextTurns (results.map (fun p => p.1.text))
      user_message).length = results.length + 2 := by
    simp [contextTurns]
  refine ⟨?_, ?_, ?_, ?_, ?_⟩
  · unfold chat
    rw [hq]
    dsimp only
    cases hl : llmComplete env
        (contextTurns (results.map (fun p => p.1.text)) user_message) <;>
      rfl
  · simp [contextTurns, List.map_map, Function.comp]
  · rw [hlen]
    omega
  · rw [hlen]
    omega
  · rw [show contextTurns (results.map (fun p => p.1.text)) user_message
        = ((⟨Role.system, MODEL_PROMPT⟩ : Turn) ::
            (results.map (fun p => p.1.text)).map
              (fun t => (⟨Role.user, t⟩ : Turn)))
          ++ [(⟨Role.user, user_message⟩ : Turn)] from by
      simp [contextTurns]]
    exact List.getLast?_concat _

/-- Witness for C3: over an empty store the query returns no prior
messages, and the turn list is exactly the system prompt followed by the
new message "test". -/
theorem chat_turn_sequence_witness :
    (collQuery envOk "test" 10 (fun m => m.user_id == "u1")
        ([] : Store)).1 = .ok ([] : List (Message × ℚ)) ∧
    ((chat envOk "u1" "test" ([] : Store)).1
        = llmComplete envOk
            (contextTurns (([] : List (Message × ℚ)).map (fun p => p.1.text))
              "test") ∧
     contextTurns (([] : List (Message × ℚ)).map (fun p => p.1.text)) "test"
        = ⟨Role.system, MODEL_PROMPT⟩ ::
            (([] : List (Message × ℚ)).map
                (fun p => (⟨Role.user, p.1.text⟩ : Turn))
              ++ [⟨Role.user, "test"⟩]) ∧
     2 ≤ (contextTurns (([] : List (Message × ℚ)).map (fun p => p.1.text))
            "test").length ∧
     (contextTurns (([] : List (Message × ℚ)).map (fun p => p.1.text))
        "test").length ≤ 12 ∧
     (contextTurns (([] : List (Message × ℚ)).map (fun p => p.1.text))
        "test").getLast? = some ⟨Role.user, "test"⟩) :=
  ⟨by rfl, chat_turn_sequence envOk [] "u1" "test" [] (by rfl)⟩

theorem digitVal_digitChar (m : Nat) (h : m < 10) :
    digitVal (Nat.digitChar m) = m := by
  interval_cases m <;> decide

theorem isDigit_digitChar (m : Nat) (h : m < 10) :
    (Nat.digitChar m).isDigit = true := by
  interval_cases m <;> decide

theorem toDigitsCore_spec (fuel : Nat) :
    ∀ (n : Nat) (ds : List Char), n < 10 ^ (fuel + 1) →
    ∃ pre : List Char,
      Nat.toDigitsCore 10 (fuel + 1) n ds = pre ++ ds ∧ pre ≠ [] ∧
      (∀ c ∈ pre, c.isDigit = true) ∧
      (∀ a : Nat, pre.foldl (fun a c => 10 * a + digitVal c) a
        = a * 10 ^ pre.length + n) := by
  induction fuel with
  | zero =>
    intro n ds hn
    have h10 : n < 10 := by simpa using hn
    have h0 : n / 10 = 0 := Nat.div_eq_of_lt h10
    refine ⟨[Nat.digitChar (n % 10)], ?_, by simp, ?_, ?_⟩
    · simp only [Nat.toDigitsCore]
      rw [if_pos h0]
      rfl
    · intro c hc
      rcases List.mem_singleton.mp hc with rfl
      exact isDigit_digitChar _ (Nat.mod_lt n (by norm_num))
    · intro a
      simp only [List.foldl_cons, List.foldl_nil, List.length_singleton,
        pow_one]
      rw [digitVal_digitChar _ (Nat.mod_lt n (by norm_num)),
        Nat.mod_eq_of_lt h10]
      ring
  | succ fuel ih =>
    intro n ds hn
    by_cases h0 : n / 10 = 0
    · have h10 : n < 10 := by
        rcases Nat.lt_or_ge n 10 with h | h
        · exact h
        · exact absurd h0 (by
            have := Nat.div_le_div_right (c := 10) h
            simp at this
            omega)
      refine ⟨[Nat.digitChar (n % 10)], ?_, by simp, ?_, ?_⟩
      · simp only [Nat.toDigitsCore]
        rw [if_pos h0]
        rfl
      · intro c hc
        rcases List.mem_singleton.mp hc with rfl
        exact isDigit_digitChar _ (Nat.mod_lt n (by norm_num))
      · intro a
        simp only [List.foldl_cons, List.foldl_nil, List.length_singleton,
          pow_one]
        rw [digitVal_digitChar _ (Nat.mod_lt n (by norm_num)),
          Nat.mod_eq_of_lt h10]
        ring
    · have hn' : n / 10 < 10 ^ (fuel + 1) := by
        rw [Nat.div_lt_iff_lt_mul (by norm_num)]
        calc n < 10 ^ (fuel + 1 + 1) := hn
          _ = 10 ^ (fuel + 1) * 10 := by ring
      obtain ⟨pre, heq, hne, hdig, hfold⟩ :=
        ih (n / 10) (Nat.digitChar (n % 10) :: ds) hn'
      refine ⟨pre ++ [Nat.digitChar (n % 10)], ?_, by simp, ?_, ?_⟩
      · have hstep : Nat.toDigitsCore 10 (fuel + 1 + 1) n ds
            = Nat.toDigitsCore 10 (fuel + 1) (n / 10)
                (Nat.digitChar (n % 10) :: ds) := by
          conv_lhs => rw [Nat.toDigitsCore.eq_def]
          dsimp only
          rw [if_neg h0]
        rw [hstep, heq, List.append_assoc, List.singleton_append]
      · intro c hc
        rcases List.mem_append.mp hc with hc | hc
        · exact hdig c hc
        · rcases List.mem_singleton.mp hc with rfl
          exact isDigit_digitChar _ (Nat.mod_lt n (by norm_num))
      · intro a
        rw [List.foldl_append, hfold a]
        simp only [List.foldl_cons, List.foldl_nil, List.length_append,
          List.length_singleton]
        rw [digitVal_digitChar _ (Nat.mod_lt n (by norm_num))]
        have hdm : 10 * (n / 10) + n % 10 = n := Nat.div_add_mod n 10
        calc 10 * (a * 10 ^ pre.length + n / 10) + n % 10
            = a * 10 ^ (pre.length + 1) + (10 * (n / 10) + n % 10) := by
              ring
          _ = a * 10 ^ (pre.length + 1) + n := by rw [hdm]

theorem repr_data_spec (n : Nat) :
    (Nat.repr n).data ≠ [] ∧
    (∀ c ∈ (Nat.repr n).data, c.isDigit = true) ∧
    decimalVal (Nat.repr n).data = n := by
  have hn : n < 10 ^ (n + 1) :=
    lt_of_lt_of_le (Nat.lt_pow_self (by norm_num) n)
      (Nat.pow_le_pow_right (by norm_num) (Nat.le_succ n))
  obtain ⟨pre, heq, hne, hdig, hfold⟩ := toDigitsCore_spec n n [] hn
  have hdata : (Nat.repr n).data = pre := by
    show (Nat.toDigitsCore 10 (n + 1) n []).asString.data = pre
    rw [heq]
    simp [List.asString]
  rw [hdata]
  refine ⟨hne, hdig, ?_⟩
  unfold decimalVal
  rw [hfold 0]
  simp

theorem digit_block_eq : ∀ (e1 e2 r1 r2 : List Char),
    (∀ c ∈ e1, c.isDigit = true) → (∀ c ∈ e2, c.isDigit = true) →
    e1 ++ '_' :: r1 = e2 ++ '_' :: r2 → e1 = e2 := by
  intro e1
  induction e1 with
  | nil =>
    intro e2 r1 r2 _ h2 heq
    cases e2 with
    | nil => rfl
    | cons c t =>
      exfalso
      simp only [List.nil_append, List.cons_append] at heq
      injection heq with hc _
      have hdc := h2 c (List.mem_cons_self _ _)
      rw [← hc] at hdc
      exact absurd hdc (by decide)
  | cons c1 t1 ih =>
    intro e2 r1 r2 h1 h2 heq
    cases e2 with
    | nil =>
      exfalso
      simp only [List.nil_append, List.cons_append] at heq
      injection heq with hc _
      have hdc := h1 c1 (List.mem_cons_self _ _)
      rw [hc] at hdc
      exact absurd hdc (by decide)
    | cons c2 t2 =>
      simp only [List.cons_append] at heq
      injection heq with hc htail
      rw [hc, ih t2 r1 r2 (fun c h => h1 c (List.mem_cons_of_mem _ h))
        (fun c h => h2 c (List.mem_cons_of_mem _ h)) htail]

theorem mkId_count_inj (u1 u2 : String) (n1 n2 : Nat)
    (h : mkId u1 n1 = mkId u2 n2) : n1 = n2 := by
  obtain ⟨-, hdig1, hv1⟩ := repr_data_spec n1
  obtain ⟨-, hdig2, hv2⟩ := repr_data_spec n2
  unfold mkId at h
  have hd := congrArg String.data h
  simp only [String.data_append, List.append_assoc,
    show ("_" : String).data = ['_'] from rfl, List.singleton_append] at hd
  have h2 := List.append_cancel_left hd
  have h3 := congrArg List.reverse h2
  simp only [List.reverse_append, List.reverse_cons, List.append_assoc,
    List.singleton_append, List.reverse_nil, List.nil_append] at h3
  have h4 := digit_block_eq (Nat.repr n1).data.reverse
    (Nat.repr n2).data.reverse u1.data.reverse u2.data.reverse
    (fun c hc => hdig1 c (List.mem_reverse.mp hc))
    (fun c hc => hdig2 c (List.mem_reverse.mp hc)) h3
  have h5 : (Nat.repr n1).data = (Nat.repr n2).data :=
    List.reverse_inj.mp h4
  rw [← hv1, ← hv2, h5]

theorem goodIds_nil : GoodIds [] := by
  intro i h
  exact absurd h (Nat.not_lt_zero i)

theorem goodIds_append (st : Store) (uid msg : String) (h : GoodIds st) :
    GoodIds (st ++ [⟨mkId uid st.length, msg, uid⟩]) := by
  intro i hi
  simp only [List.length_append, List.length_cons, List.length_nil] at hi
  by_cases hlt : i < st.length
  · rw [List.getElem_append_left hlt, h i hlt]
  · have hieq : i = st.length := by omega
    rw [List.getElem_concat_length st _ i hieq]
    rw [hieq]

theorem process_chat_goodIds (env : Env) (user_id user_message : String)
    (st : Store) (h : GoodIds st) :
    GoodIds ((process_chat env user_id user_message st).2) := by
  have hsnd := chat_snd env user_id user_message st
  rcases hc : chat env user_id user_message st with ⟨res, st'⟩
  rw [hc] at hsnd
  dsimp at hsnd
  subst hsnd
  unfold process_chat
  rw [hc]
  cases res with
  | error e => exact h
  | ok resp =>
    dsimp [collCount, collAdd]
    exact goodIds_append _ user_id user_message h

theorem run_chats_goodIds (reqs : List (Env × String × String)) (st : Store)
    (h : GoodIds st) : GoodIds (run_chats st reqs) := by
  induction reqs generalizing st with
  | nil => exact h
  | cons r rest ih =>
    show GoodIds (run_chats ((process_chat r.1 r.2.1 r.2.2 st).2) rest)
    exact ih _ (process_chat_goodIds r.1 r.2.1 r.2.2 st h)

/-- Claim C8: under sequential execution, no two messages stored over the
collection's lifetime carry the same id: each insertion reads a strictly
larger store size, and `"user_message_{user_id}_{count}"` determines the
count (the digits after the last underscore). -/
theorem chat_ids_unique (reqs : List (Env × String × String)) :
    (run_chats [] reqs).Pairwise (fun m1 m2 => m1.id ≠ m2.id) := by
  have hg := run_chats_goodIds reqs [] goodIds_nil
  rw [List.pairwise_iff_getElem]
  intro i j hi hj hij
  intro heq
  rw [hg i hi, hg j hj] at heq
  exact absurd (mkId_count_inj _ _ i j heq) (Nat.ne_of_lt hij)
